import Mathlib

/-!
Verification of the `ManualModeApp` client controller (static/js/manual.js)
of the autobots-frontend repository.

Strings are modelled as `List Char`.  JavaScript string primitives
(`trim`, `split('\n')`, `startsWith`, the concrete regular expressions used
by the code) are embedded as executable functions on `List Char`.  The
regular-expression embeddings follow the exact semantics of the JS regexes
at their call sites (anchored searches, greedy/lazy quantifiers, global
replacement scanning left to right and continuing after each match).
-/

namespace Autobots

/-- ASCII whitespace recognised by JS `trim` and by the `\s` character
class (space, tab, newline, carriage return, vertical tab, form feed). -/
def isWS (c : Char) : Bool :=
  c = ' ' || c = '\t' || c = '\n' || c = '\r' || c = '\x0b' || c = '\x0c'

/-- JS `\d` character class. -/
def isDigitC (c : Char) : Bool :=
  '0' ≤ c && c ≤ '9'

/-- The `[A-Z\s&]` character class used by the section-header regexes. -/
def inCapsClass (c : Char) : Bool :=
  ('A' ≤ c && c ≤ 'Z') || isWS c || c = '&'

/-- JS `\w` character class (`[A-Za-z0-9_]`). -/
def isWordC (c : Char) : Bool :=
  ('a' ≤ c && c ≤ 'z') || ('A' ≤ c && c ≤ 'Z') || ('0' ≤ c && c ≤ '9') || c = '_'

/-- JS `String.prototype.trim`: drop whitespace from both ends. -/
def trimJS (l : List Char) : List Char :=
  ((l.dropWhile isWS).reverse.dropWhile isWS).reverse

/-- JS `String.prototype.split('\n')`. -/
def splitNl : List Char → List (List Char)
  | [] => [[]]
  | c :: rest =>
    if c = '\n' then [] :: splitNl rest
    else
      match splitNl rest with
      | [] => [[c]]
      | h :: t => (c :: h) :: t

/-- Regex `/^\d+\.\s*\*\*/` (test): a numbered bold line. -/
def matchNumBold (l : List Char) : Bool :=
  let ds := l.takeWhile isDigitC
  !ds.isEmpty &&
    match l.drop ds.length with
    | '.' :: rest =>
      match rest.dropWhile isWS with
      | '*' :: '*' :: _ => true
      | _ => false
    | _ => false

/-- Regex `/^\d+\.\s*[A-Z\s&]{10,}$/` (test): a numbered all-caps line.
Since `\s` is contained in the class, the regex matches exactly when the
remainder after `\d+\.` consists of class characters and has length ≥ 10. -/
def matchNumCapsLong (l : List Char) : Bool :=
  let ds := l.takeWhile isDigitC
  !ds.isEmpty &&
    match l.drop ds.length with
    | '.' :: rest => rest.all inCapsClass && 10 ≤ rest.length
    | _ => false

/-- Regex `/^#{1,3}\s*\d+\./` (test): a markdown heading with a number.
A run of more than three `#` cannot match (the leftover `#` is neither
whitespace nor a digit), so the test succeeds exactly when the leading run
of `#` has length 1–3 and is followed by whitespace, digits, and `.`. -/
def matchHashNum (l : List Char) : Bool :=
  let hs := l.takeWhile (fun c => c = '#')
  (1 ≤ hs.length && hs.length ≤ 3) &&
    (let r := (l.drop hs.length).dropWhile isWS
     let ds := r.takeWhile isDigitC
     !ds.isEmpty && (r.drop ds.length).head? == some '.')

/-- Regex `/^[A-Z\s&]{15,}$/` (test): a standalone all-caps line. -/
def matchAllCapsLong (l : List Char) : Bool :=
  15 ≤ l.length && l.all inCapsClass

/-- JS `isSectionHeader(line)` from manual.js. -/
def isSectionHeader (l : List Char) : Bool :=
  matchNumBold l || matchNumCapsLong l || matchHashNum l || matchAllCapsLong l

/-- JS `line.replace(/^\d+\.\s*/, '')`: strip one leading ordinal prefix. -/
def stripOrdinalMark (l : List Char) : List Char :=
  let ds := l.takeWhile isDigitC
  if ds.isEmpty then l
  else
    match l.drop ds.length with
    | '.' :: rest => rest.dropWhile isWS
    | _ => l

/-- JS `line.replace(/^[-•]\s*/, '')`: strip one leading bullet marker. -/
def stripBulletMark (l : List Char) : List Char :=
  match l with
  | '-' :: rest => rest.dropWhile isWS
  | '•' :: rest => rest.dropWhile isWS
  | _ => l

/-- JS `.replace(/\*\*/g, '')`: delete every non-overlapping `**`, left to right. -/
def removeDoubleStars : List Char → List Char
  | '*' :: '*' :: rest => removeDoubleStars rest
  | c :: rest => c :: removeDoubleStars rest
  | [] => []

/-- JS `.replace(/#{1,3}\s*/, '')` (first match only): at the first `#`, a run
of k `#` loses min(k,3) hashes, and when k ≤ 3 also the following
whitespace. -/
def removeHashOnce : List Char → List Char
  | [] => []
  | c :: rest =>
    if c = '#' then
      let run := rest.takeWhile (fun d => d = '#')
      let tail := rest.drop run.length
      if 3 ≤ run.length then run.drop 2 ++ tail
      else tail.dropWhile isWS
    else c :: removeHashOnce rest

/-- ASCII lower-casing, as JS `toLowerCase` acts on ASCII letters. -/
def toLowerAscii (c : Char) : Char :=
  if 'A' ≤ c && c ≤ 'Z' then Char.ofNat (c.toNat + 32) else c

/-- ASCII upper-casing, as JS `toUpperCase` acts on ASCII letters. -/
def toUpperAscii (c : Char) : Char :=
  if 'a' ≤ c && c ≤ 'z' then Char.ofNat (c.toNat - 32) else c

/-- JS `.replace(/\b\w/g, l => l.toUpperCase())`: upper-case every word
character not preceded by a word character.  The Boolean records whether
the previous character was a word character. -/
def titleCaseAux : List Char → Bool → List Char
  | [], _ => []
  | c :: rest, prevWord =>
    (if isWordC c && !prevWord then toUpperAscii c else c) :: titleCaseAux rest (isWordC c)

/-- JS `cleanSectionTitle(title)` from manual.js. -/
def cleanSectionTitle (l : List Char) : List Char :=
  titleCaseAux
    ((trimJS
        ((removeHashOnce (removeDoubleStars (stripOrdinalMark l))).map
          (fun c => if c = '_' then ' ' else c))).map toLowerAscii)
    false

/-- JS `.replace(/#{1,6}\s*/g, '')`.  Globally, every run of `#` is deleted
together with the whitespace that follows its final chunk; chunking a run
of more than six `#` into successive matches deletes the same characters,
so the scan below (the flag records that a hash run is being consumed,
allowing trailing whitespace to be skipped) is the global replacement. -/
def stripHashesAux : List Char → Bool → List Char
  | [], _ => []
  | c :: rest, afterHash =>
    if c = '#' then stripHashesAux rest true
    else if afterHash && isWS c then stripHashesAux rest true
    else c :: stripHashesAux rest false

/-- JS `.replace(/#{1,6}\s*/g, '')` from `formatSectionContent`. -/
def stripHashes (l : List Char) : List Char :=
  stripHashesAux l false

/-- JS `.replace(/\*\*(.*?)\*\*/g, '<strong>$1</strong>')`.  The accumulator
holds the (reversed) lazily captured text after an opening `**`; `.` does
not match a newline, and an unclosed opening is emitted literally (no
alternative match can start inside an unclosed capture, since any closing
`**` there would have closed the original opening first). -/
def replaceBoldAux : List Char → Option (List Char) → List Char
  | [], none => []
  | [], some buf => '*' :: '*' :: buf.reverse
  | '*' :: '*' :: rest, none => replaceBoldAux rest (some [])
  | '*' :: '*' :: rest, some buf =>
    "<strong>".data ++ buf.reverse ++ "</strong>".data ++ replaceBoldAux rest none
  | '\n' :: rest, some buf => '*' :: '*' :: buf.reverse ++ '\n' :: replaceBoldAux rest none
  | c :: rest, none => c :: replaceBoldAux rest none
  | c :: rest, some buf => replaceBoldAux rest (some (c :: buf))

/-- JS `.replace(/\*\*(.*?)\*\*/g, '<strong>$1</strong>')`. -/
def replaceBold (l : List Char) : List Char :=
  replaceBoldAux l none

/-- JS `.replace(/\*(.*?)\*/g, '<em>$1</em>')`, same scanning discipline. -/
def replaceItalAux : List Char → Option (List Char) → List Char
  | [], none => []
  | [], some buf => '*' :: buf.reverse
  | '*' :: rest, none => replaceItalAux rest (some [])
  | '*' :: rest, some buf =>
    "<em>".data ++ buf.reverse ++ "</em>".data ++ replaceItalAux rest none
  | '\n' :: rest, some buf => '*' :: buf.reverse ++ '\n' :: replaceItalAux rest none
  | c :: rest, none => c :: replaceItalAux rest none
  | c :: rest, some buf => replaceItalAux rest (some (c :: buf))

/-- JS `.replace(/\*(.*?)\*/g, '<em>$1</em>')`. -/
def replaceItal (l : List Char) : List Char :=
  replaceItalAux l none

/-- JS `line.startsWith('-') || line.startsWith('•') || line.match(/^\d+\./)`. -/
def matchNumDot (l : List Char) : Bool :=
  let ds := l.takeWhile isDigitC
  !ds.isEmpty && (l.drop ds.length).head? == some '.'

/-- The bullet-line test of the `formatSectionContent` loop. -/
def isBulletLine (l : List Char) : Bool :=
  l.head? == some '-' || l.head? == some '•' || matchNumDot l

/-- JS `'<ul class="analysis-list">'`. -/
def ulOpen : List Char := "<ul class=\"analysis-list\">".data

/-- JS `'</ul>'`. -/
def ulClose : List Char := "</ul>".data

/-- JS `'<li>'`. -/
def liOpen : List Char := "<li>".data

/-- JS `'</li>'`. -/
def liClose : List Char := "</li>".data

/-- JS `'<p>'`. -/
def pOpen : List Char := "<p>".data

/-- JS `'</p>'`. -/
def pClose : List Char := "</p>".data

/-- Placeholder returned for a blank section content argument. -/
def noSpecificMsg : List Char :=
  "<p style=\"color: #888; font-style: italic;\">No specific analysis available for this section.</p>".data

/-- Placeholder returned when the formatting loop produced no output. -/
def noDetailedMsg : List Char :=
  "<p style=\"color: #888; font-style: italic;\">No detailed analysis available.</p>".data

/-- One iteration of the `for (let line of lines)` loop of
`formatSectionContent`: the state is the accumulated HTML and the
`inList` flag. -/
def fscStep (st : List Char × Bool) (rawLine : List Char) : List Char × Bool :=
  let line := trimJS rawLine
  if line.isEmpty then st
  else if isBulletLine line then
    let opened := if st.2 then st.1 else st.1 ++ ulOpen
    (opened ++ liOpen ++ stripOrdinalMark (stripBulletMark line) ++ liClose, true)
  else
    let closed := if st.2 then st.1 ++ ulClose else st.1
    (if 5 < line.length then closed ++ pOpen ++ line ++ pClose else closed, false)

/-- JS `formatSectionContent(content)` from manual.js. -/
def formatSectionContent (content : List Char) : List Char :=
  if (trimJS content).isEmpty then noSpecificMsg
  else
    let cleanContent := trimJS (replaceItal (replaceBold (stripHashes content)))
    let lines := (splitNl cleanContent).filter (fun l => !(trimJS l).isEmpty)
    let st := lines.foldl fscStep ([], false)
    let formattedContent := st.1 ++ (if st.2 then ulClose else [])
    if formattedContent.isEmpty then noDetailedMsg else formattedContent

/-- A `{ title, content }` section object produced by
`parseDetailedAnalysis`. -/
structure AnalysisSection where
  title : List Char
  content : List Char
deriving DecidableEq

/-- JS `'General Analysis'`, the default section title. -/
def generalAnalysisTitle : List Char := "General Analysis".data

/-- One iteration of the `for (let line of lines)` loop of
`parseDetailedAnalysis`: the state is the list of flushed sections and the
current section (title, accumulated content). -/
def stepLine (st : List AnalysisSection × (List Char × List Char)) (rawLine : List Char) :
    List AnalysisSection × (List Char × List Char) :=
  let line := trimJS rawLine
  if isSectionHeader line then
    let secs :=
      if (trimJS st.2.2).isEmpty then st.1
      else st.1 ++ [⟨st.2.1, formatSectionContent st.2.2⟩]
    (secs, (cleanSectionTitle line, []))
  else
    match line with
    | [] => st
    | c :: cs => if c = '#' then st else (st.1, (st.2.1, st.2.2 ++ (c :: cs) ++ ['\n']))

/-- JS `parseDetailedAnalysis(detailedAnalysis)` from manual.js. -/
def parseDetailedAnalysis (s : List Char) : List AnalysisSection :=
  let st := (splitNl s).foldl stepLine ([], (generalAnalysisTitle, []))
  if (trimJS st.2.2).isEmpty then st.1
  else st.1 ++ [⟨st.2.1, formatSectionContent st.2.2⟩]

/-- The sections actually rendered by `displayAnalysis`: the
`parsedSections.forEach` loop skips a section whose content is blank
(`if (section.content.trim())`). -/
def displayedSections (d : List Char) : List AnalysisSection :=
  (parseDetailedAnalysis d).filter (fun sec => !(trimJS sec.content).isEmpty)

/-- The `analysis` object of a successful `/analyze` or `/upload`
response: `{ quality_score, summary, detailed_analysis }`. -/
structure Analysis where
  qualityScore : Int
  summary : List Char
  detailedAnalysis : List Char
deriving DecidableEq

/-- The session state held by `ManualModeApp`
(`currentAnalysis`, `currentFiles`, `currentCacheKey`). -/
structure SessionState where
  currentAnalysis : Option Analysis
  currentFiles : List (List Char)
  currentCacheKey : Option (List Char)
deriving DecidableEq

/-- The state set by the `ManualModeApp` constructor. -/
def initialState : SessionState :=
  ⟨none, [], none⟩

/-- Payload of a successful `/analyze` or `/upload` response. -/
structure AnalyzePayload where
  analysis : Analysis
  cacheKey : List Char
deriving DecidableEq

/-- Payload of a successful `/generate-tests` response. -/
structure TestsPayload where
  testFiles : List (List Char)
  downloadUrl : List Char
  totalFiles : Int
deriving DecidableEq

/-- Payload of a successful `/generate-document` response. -/
structure DocPayload where
  downloadUrl : List Char
  filename : List Char
deriving DecidableEq

/-- Result of one `fetch`: a parsed `success:true` payload, a parsed
`success:false` with an optional `error` string, or a thrown
transport/parse error. -/
inductive FetchOutcome (α : Type) where
  | ok (payload : α)
  | fail (err : Option (List Char))
  | exn (msg : List Char)
deriving DecidableEq

/-- The backend endpoints the client calls. -/
inductive Endpoint where
  | analyze
  | upload
  | generateTests
  | generateDocument
deriving DecidableEq

/-- Request bodies sent by the handlers. -/
inductive RequestBody where
  | analyzeBody (gitUrl accessToken manualCode : List Char)
  | uploadBody (files : List (List Char))
  | cacheKeyBody (cacheKey : List Char)
deriving DecidableEq

/-- Observable actions of a handler, in order of occurrence. -/
inductive Event where
  | showError (msg : List Char)
  | showLoading (flag : Bool)
  | request (endpoint : Endpoint) (body : RequestBody)
  | displayAnalysisEvt (a : Analysis)
  | enableTestBtn
  | displayTestResults (files : List (List Char)) (downloadUrl : List Char) (total : Int)
  | triggerDownload (url fname : List Char)
  | showDocumentSuccess (fname : List Char)
  | btnSetLoading
  | btnRestore
deriving DecidableEq

/-- JS `result.error || 'default'`: JS falls back on a missing or empty
error string. -/
def jsOrDefault (o : Option (List Char)) (d : List Char) : List Char :=
  match o with
  | some v => if v.isEmpty then d else v
  | none => d

/-- Error message of the local validation in `handleAnalyze`. -/
def provideCodeMsg : List Char :=
  "Please provide code via Git URL, manual input, or file upload.".data

/-- Fallback message for a failed `/analyze`. -/
def analysisFailedMsg : List Char := "Analysis failed".data

/-- Prefix of a thrown-error message in `handleAnalyze`. -/
def networkErrorHead : List Char := "Network error: ".data

/-- Fallback message for a failed `/upload`. -/
def uploadFailedMsg : List Char := "File upload failed".data

/-- Prefix of a thrown-error message in `handleFileUpload`. -/
def uploadErrorHead : List Char := "Upload error: ".data

/-- Fallback message for a failed `/generate-tests`. -/
def testsFailedMsg : List Char := "Test generation failed".data

/-- Prefix of a thrown-error message in `handleGenerateTests`. -/
def generationErrorHead : List Char := "Generation error: ".data

/-- Fallback message for a failed `/generate-document`. -/
def docFailedMsg : List Char := "Document generation failed".data

/-- Prefix of a thrown-error message in `handleGenerateDocument`. -/
def docErrorHead : List Char := "Document generation error: ".data

/-- Local error of `handleGenerateTests` / `handleGenerateDocument`. -/
def pleaseAnalyzeMsg : List Char := "Please analyze code first".data

/-- JS `handleAnalyze()` from manual.js, as a function of the current state,
the raw input-field values, and the outcome of the `/analyze` fetch. -/
def handleAnalyze (st : SessionState) (rawGitUrl rawAccessToken rawManualCode : List Char)
    (resp : FetchOutcome AnalyzePayload) : SessionState × List Event :=
  let gitUrl := trimJS rawGitUrl
  let accessToken := trimJS rawAccessToken
  let manualCode := trimJS rawManualCode
  if gitUrl.isEmpty && manualCode.isEmpty && (st.currentFiles.length == 0) then
    (st, [Event.showError provideCodeMsg])
  else
    let pre := [Event.showLoading true,
                Event.request Endpoint.analyze
                  (RequestBody.analyzeBody gitUrl accessToken manualCode)]
    match resp with
    | .ok p =>
      ({ st with currentAnalysis := some p.analysis, currentCacheKey := some p.cacheKey },
       pre ++ [Event.displayAnalysisEvt p.analysis, Event.enableTestBtn,
               Event.showLoading false])
    | .fail e =>
      (st, pre ++ [Event.showError (jsOrDefault e analysisFailedMsg), Event.showLoading false])
    | .exn m =>
      (st, pre ++ [Event.showError (networkErrorHead ++ m), Event.showLoading false])

/-- JS `handleFileUpload()` from manual.js. -/
def handleFileUpload (st : SessionState) (files : List (List Char))
    (resp : FetchOutcome AnalyzePayload) : SessionState × List Event :=
  if files.length == 0 then (st, [])
  else
    let pre := [Event.showLoading true,
                Event.request Endpoint.upload (RequestBody.uploadBody files)]
    match resp with
    | .ok p =>
      ({ st with currentAnalysis := some p.analysis, currentCacheKey := some p.cacheKey },
       pre ++ [Event.displayAnalysisEvt p.analysis, Event.enableTestBtn,
               Event.showLoading false])
    | .fail e =>
      (st, pre ++ [Event.showError (jsOrDefault e uploadFailedMsg), Event.showLoading false])
    | .exn m =>
      (st, pre ++ [Event.showError (uploadErrorHead ++ m), Event.showLoading false])

/-- JS truthiness of `this.currentCacheKey` (`null` and `''` are falsy). -/
def cacheKeyPresent (st : SessionState) : Bool :=
  match st.currentCacheKey with
  | none => false
  | some k => !k.isEmpty

/-- JS `handleGenerateTests()` from manual.js. -/
def handleGenerateTests (st : SessionState) (resp : FetchOutcome TestsPayload) :
    SessionState × List Event :=
  if cacheKeyPresent st then
    let key := st.currentCacheKey.getD []
    let pre := [Event.showLoading true,
                Event.request Endpoint.generateTests (RequestBody.cacheKeyBody key)]
    match resp with
    | .ok p =>
      (st, pre ++ [Event.displayTestResults p.testFiles p.downloadUrl p.totalFiles,
                   Event.showLoading false])
    | .fail e =>
      (st, pre ++ [Event.showError (jsOrDefault e testsFailedMsg), Event.showLoading false])
    | .exn m =>
      (st, pre ++ [Event.showError (generationErrorHead ++ m), Event.showLoading false])
  else (st, [Event.showError pleaseAnalyzeMsg])

/-- JS `handleGenerateDocument()` from manual.js. -/
def handleGenerateDocument (st : SessionState) (resp : FetchOutcome DocPayload) :
    SessionState × List Event :=
  if cacheKeyPresent st then
    let key := st.currentCacheKey.getD []
    let pre := [Event.btnSetLoading,
                Event.request Endpoint.generateDocument (RequestBody.cacheKeyBody key)]
    match resp with
    | .ok p =>
      (st, pre ++ [Event.triggerDownload p.downloadUrl p.filename,
                   Event.showDocumentSuccess p.filename, Event.btnRestore])
    | .fail e =>
      (st, pre ++ [Event.showError (jsOrDefault e docFailedMsg), Event.btnRestore])
    | .exn m =>
      (st, pre ++ [Event.showError (docErrorHead ++ m), Event.btnRestore])
  else (st, [Event.showError pleaseAnalyzeMsg])

/-- Whether an event trace contains a network request. -/
def isRequestEvent : Event → Bool
  | .request _ _ => true
  | _ => false

/-- A handler issued a network request. -/
def issuesRequest (evs : List Event) : Bool :=
  evs.any isRequestEvent

/-- A fetch outcome other than `success:true`. -/
def isFailureOutcome {α : Type} : FetchOutcome α → Bool
  | .ok _ => false
  | .fail _ => true
  | .exn _ => true

/-- States reachable from the constructor state by any sequence of the
four handlers. -/
inductive Reachable : SessionState → Prop where
  | init : Reachable initialState
  | analyze {st g t c r} : Reachable st → Reachable (handleAnalyze st g t c r).1
  | upload {st fs r} : Reachable st → Reachable (handleFileUpload st fs r).1
  | genTests {st r} : Reachable st → Reachable (handleGenerateTests st r).1
  | genDoc {st r} : Reachable st → Reachable (handleGenerateDocument st r).1

/-- The HTML `<li>` chunk the loop emits for a bullet line. -/
def liChunkOf (l : List Char) : List Char :=
  liOpen ++ stripOrdinalMark (stripBulletMark (trimJS l)) ++ liClose

/-- The HTML chunk the loop emits for a non-bullet line. -/
def pChunk (e : List Char) : List Char :=
  if 5 < e.length then pOpen ++ e ++ pClose else []

/-- The HTML emitted by the `formatSectionContent` loop over a list of
lines from a given `inList` flag, without the final `</ul>` flush. -/
def emitRaw : List (List Char) → Bool → List Char
  | [], _ => []
  | l :: ls, b =>
    let line := trimJS l
    if line.isEmpty then emitRaw ls b
    else if isBulletLine line then
      (if b then [] else ulOpen) ++ liOpen ++ stripOrdinalMark (stripBulletMark line) ++
        liClose ++ emitRaw ls true
    else
      (if b then ulClose else []) ++ pChunk line ++ emitRaw ls false

/-- The `inList` flag after the `formatSectionContent` loop. -/
def endFlag : List (List Char) → Bool → Bool
  | [], b => b
  | l :: ls, b =>
    let line := trimJS l
    if line.isEmpty then endFlag ls b
    else if isBulletLine line then endFlag ls true
    else endFlag ls false

/-- The contribution of one raw line to the current section's content in
`parseDetailedAnalysis` (the trimmed line plus `'\n'`, or nothing for a
blank or `#`-prefixed line). -/
def keepLine (rawLine : List Char) : List Char :=
  match trimJS rawLine with
  | [] => []
  | c :: cs => if c = '#' then [] else (c :: cs) ++ ['\n']

/-- The content accumulated by `parseDetailedAnalysis` over a list of
lines none of which is a section header. -/
def gatherContent : List (List Char) → List Char
  | [] => []
  | l :: ls => keepLine l ++ gatherContent ls

/-- Join a list of lines with single `'\n'` separators. -/
def joinLines : List (List Char) → List Char
  | [] => []
  | [e] => e
  | e :: es => e ++ '\n' :: joinLines es

/-- HTML-tag stripping: delete every `<`…`>` span (the flag records being
inside a tag). -/
def stripTagsAux : List Char → Bool → List Char
  | [], _ => []
  | c :: rest, true => if c = '>' then stripTagsAux rest false else stripTagsAux rest true
  | c :: rest, false => if c = '<' then stripTagsAux rest true else c :: stripTagsAux rest false

/-- Strip HTML tags from a rendered string. -/
def stripTags (l : List Char) : List Char :=
  stripTagsAux l false

theorem dropWhile_head_false {α : Type} {p : α → Bool} :
    ∀ {l : List α} {c : α} {cs : List α}, List.dropWhile p l = c :: cs → p c = false := by
  intro l
  induction l with
  | nil => intro c cs h; simp [List.dropWhile] at h
  | cons a l ih =>
    intro c cs h
    rw [List.dropWhile_cons] at h
    by_cases hp : p a
    · simp only [hp, if_true] at h
      exact ih h
    · simp only [hp, if_false] at h
      cases h
      simpa using hp

theorem dropWhile_of_head_false {α : Type} {p : α → Bool} {c : α} {cs : List α}
    (h : p c = false) : List.dropWhile p (c :: cs) = c :: cs := by
  simp [List.dropWhile_cons, h]

theorem dropWhile_self_of_head {α : Type} {p : α → Bool} :
    ∀ {l : List α}, (∀ c cs, l = c :: cs → p c = false) → List.dropWhile p l = l := by
  intro l h
  cases l with
  | nil => rfl
  | cons a t => exact dropWhile_of_head_false (h a t rfl)

theorem dropWhile_is_suffix {α : Type} {p : α → Bool} :
    ∀ (l : List α), ∃ t, t ++ List.dropWhile p l = l := by
  intro l
  induction l with
  | nil => exact ⟨[], rfl⟩
  | cons a l ih =>
    by_cases hp : p a
    · obtain ⟨t, ht⟩ := ih
      exact ⟨a :: t, by simp [List.dropWhile_cons, hp, ht]⟩
    · exact ⟨[], by simp [List.dropWhile_cons, hp]⟩

theorem trimJS_eq_nil_iff {l : List Char} :
    trimJS l = [] ↔ ∀ c ∈ l, isWS c = true := by
  unfold trimJS
  rw [List.reverse_eq_nil_iff, List.dropWhile_eq_nil_iff]
  constructor
  · intro h c hc
    have hsplit := List.takeWhile_append_dropWhile (p := isWS) (l := l)
    rw [← hsplit] at hc
    rcases List.mem_append.mp hc with h1 | h2
    · exact List.mem_takeWhile_imp h1
    · exact h (c) (by simpa using h2)
  · intro h c hc
    rw [List.mem_reverse] at hc
    have hsub := dropWhile_is_suffix (p := isWS) l
    obtain ⟨t, ht⟩ := hsub
    exact h c (by rw [← ht]; exact List.mem_append_right _ hc)

theorem trimJS_head_not_ws {l : List Char} {c : Char} {cs : List Char}
    (h : trimJS l = c :: cs) : isWS c = false := by
  unfold trimJS at h
  set m := List.dropWhile isWS l with hm
  obtain ⟨t, ht⟩ := dropWhile_is_suffix (p := isWS) m.reverse
  have hrev : m = (List.dropWhile isWS m.reverse).reverse ++ t.reverse := by
    have := congrArg List.reverse ht
    simpa [List.reverse_append] using this.symm
  rw [h] at hrev
  have : m = c :: (cs.reverse.reverse ++ t.reverse) := by
    simpa using hrev
  exact dropWhile_head_false (l := l) (by rw [← hm]; exact this)

theorem trimJS_reverse_head_not_ws {l : List Char} {c : Char} {cs : List Char}
    (h : (trimJS l).reverse = c :: cs) : isWS c = false := by
  unfold trimJS at h
  rw [List.reverse_reverse] at h
  exact dropWhile_head_false h

theorem trimJS_idem (l : List Char) : trimJS (trimJS l) = trimJS l := by
  have h1 : List.dropWhile isWS (trimJS l) = trimJS l := by
    apply dropWhile_self_of_head
    intro c cs h
    exact trimJS_head_not_ws (l := l) h
  have h2 : List.dropWhile isWS (trimJS l).reverse = (trimJS l).reverse := by
    apply dropWhile_self_of_head
    intro c cs h
    exact trimJS_reverse_head_not_ws (l := l) h
  have hdef : trimJS (trimJS l) =
      (List.dropWhile isWS (List.dropWhile isWS (trimJS l)).reverse).reverse := rfl
  rw [hdef, h1, h2, List.reverse_reverse]

theorem splitNl_ne_nil : ∀ (s : List Char), splitNl s ≠ [] := by
  intro s
  induction s with
  | nil => simp [splitNl]
  | cons c rest ih =>
    by_cases hc : c = '\n'
    · simp [splitNl, hc]
    · simp only [splitNl, hc, if_false]
      cases hsp : splitNl rest with
      | nil => simp
      | cons h t => simp

theorem mem_of_mem_splitNl : ∀ {s : List Char} {l : List Char} {c : Char},
    l ∈ splitNl s → c ∈ l → c ∈ s := by
  intro s
  induction s with
  | nil =>
    intro l c hl hc
    simp [splitNl] at hl
    subst hl
    simp at hc
  | cons a rest ih =>
    intro l c hl hc
    by_cases ha : a = '\n'
    · rw [splitNl, if_pos ha] at hl
      rcases List.mem_cons.mp hl with h1 | h2
      · subst h1; simp at hc
      · exact List.mem_cons_of_mem a (ih h2 hc)
    · rw [splitNl, if_neg ha] at hl
      cases hsp : splitNl rest with
      | nil => exact absurd hsp (splitNl_ne_nil rest)
      | cons h t =>
        rw [hsp] at hl
        rcases List.mem_cons.mp hl with h1 | h2
        · subst h1
          rcases List.mem_cons.mp hc with h3 | h4
          · subst h3; exact List.mem_cons_self _ _
          · exact List.mem_cons_of_mem a (ih (by rw [hsp]; exact List.mem_cons_self h t) h4)
        · exact List.mem_cons_of_mem a (ih (by rw [hsp]; exact List.mem_cons_of_mem h h2) hc)

theorem newline_not_mem_splitNl : ∀ {s : List Char} {l : List Char},
    l ∈ splitNl s → '\n' ∉ l := by
  intro s
  induction s with
  | nil =>
    intro l hl
    simp [splitNl] at hl
    subst hl
    simp
  | cons a rest ih =>
    intro l hl
    by_cases ha : a = '\n'
    · rw [splitNl, if_pos ha] at hl
      rcases List.mem_cons.mp hl with h1 | h2
      · subst h1; simp
      · exact ih h2
    · rw [splitNl, if_neg ha] at hl
      cases hsp : splitNl rest with
      | nil => exact absurd hsp (splitNl_ne_nil rest)
      | cons h t =>
        rw [hsp] at hl
        rcases List.mem_cons.mp hl with h1 | h2
        · subst h1
          intro hmem
          rcases List.mem_cons.mp hmem with h3 | h4
          · exact ha h3.symm
          · exact ih (by rw [hsp]; exact List.mem_cons_self h t) h4
        · exact ih (by rw [hsp]; exact List.mem_cons_of_mem h h2)

theorem splitNl_of_no_newline : ∀ {e : List Char}, '\n' ∉ e → splitNl e = [e] := by
  intro e
  induction e with
  | nil => intro _; rfl
  | cons c rest ih =>
    intro h
    have hc : c ≠ '\n' := fun hc => h (by rw [hc]; exact List.mem_cons_self _ _)
    have hrest : '\n' ∉ rest := fun hr => h (List.mem_cons_of_mem c hr)
    rw [splitNl, if_neg hc, ih hrest]

theorem splitNl_append_newline : ∀ {e : List Char} (rest : List Char), '\n' ∉ e →
    splitNl (e ++ '\n' :: rest) = e :: splitNl rest := by
  intro e
  induction e with
  | nil =>
    intro rest _
    simp [splitNl]
  | cons c e' ih =>
    intro rest h
    have hc : c ≠ '\n' := fun hc => h (by rw [hc]; exact List.mem_cons_self _ _)
    have he' : '\n' ∉ e' := fun hr => h (List.mem_cons_of_mem c hr)
    have hrec := ih rest he'
    rw [List.cons_append, splitNl, if_neg hc, hrec]

theorem mem_of_mem_trimJS {l : List Char} {c : Char} (h : c ∈ trimJS l) : c ∈ l := by
  unfold trimJS at h
  rw [List.mem_reverse] at h
  obtain ⟨t, ht⟩ := dropWhile_is_suffix (p := isWS) (List.dropWhile isWS l).reverse
  have h2 : c ∈ (List.dropWhile isWS l).reverse := by
    rw [← ht]; exact List.mem_append_right _ h
  rw [List.mem_reverse] at h2
  obtain ⟨t2, ht2⟩ := dropWhile_is_suffix (p := isWS) l
  rw [← ht2]
  exact List.mem_append_right _ h2

theorem stepLine_noheader {l : List Char} (secs : List AnalysisSection) (t c : List Char)
    (h : isSectionHeader (trimJS l) = false) :
    stepLine (secs, (t, c)) l = (secs, (t, c ++ keepLine l)) := by
  unfold stepLine keepLine
  simp only [h, Bool.false_eq_true, if_false]
  cases htr : trimJS l with
  | nil => simp [htr]
  | cons a cs =>
    by_cases ha : a = '#'
    · simp [htr, ha]
    · simp [htr, ha]

theorem foldl_stepLine_noheader :
    ∀ (ls : List (List Char)) (secs : List AnalysisSection) (t c : List Char),
    (∀ l ∈ ls, isSectionHeader (trimJS l) = false) →
    List.foldl stepLine (secs, (t, c)) ls = (secs, (t, c ++ gatherContent ls)) := by
  intro ls
  induction ls with
  | nil => intro secs t c _; simp [gatherContent]
  | cons l ls ih =>
    intro secs t c h
    have hl := h l (List.mem_cons_self _ _)
    have hrest : ∀ x ∈ ls, isSectionHeader (trimJS x) = false :=
      fun x hx => h x (List.mem_cons_of_mem _ hx)
    rw [List.foldl_cons, stepLine_noheader secs t c hl, ih secs t _ hrest]
    simp [gatherContent, List.append_assoc]

theorem parse_noheader {s : List Char}
    (h : ∀ l ∈ splitNl s, isSectionHeader (trimJS l) = false) :
    parseDetailedAnalysis s =
      if (trimJS (gatherContent (splitNl s))).isEmpty then []
      else [⟨generalAnalysisTitle, formatSectionContent (gatherContent (splitNl s))⟩] := by
  unfold parseDetailedAnalysis
  rw [foldl_stepLine_noheader (splitNl s) [] generalAnalysisTitle [] h]
  simp

theorem keepLine_struct {l : List Char} (h : keepLine l ≠ []) :
    ∃ c cs, trimJS l = c :: cs ∧ c ≠ '#' ∧ keepLine l = (c :: cs) ++ ['\n'] := by
  cases htr : trimJS l with
  | nil =>
    simp only [keepLine, htr] at h
    exact absurd rfl h
  | cons a cs =>
    by_cases ha : a = '#'
    · simp only [keepLine, htr, ha, if_pos] at h
      simp at h
    · exact ⟨a, cs, rfl, ha, by simp only [keepLine, htr]; simp [ha]⟩

theorem gather_exists_ne {ls : List (List Char)} (h : gatherContent ls ≠ []) :
    ∃ l ∈ ls, keepLine l ≠ [] := by
  induction ls with
  | nil => simp [gatherContent] at h
  | cons l ls ih =>
    rw [gatherContent] at h
    by_cases hk : keepLine l = []
    · rw [hk, List.nil_append] at h
      obtain ⟨x, hx, hxe⟩ := ih h
      exact ⟨x, List.mem_cons_of_mem _ hx, hxe⟩
    · exact ⟨l, List.mem_cons_self _ _, hk⟩

theorem mem_gatherContent_of {ls : List (List Char)} {l : List Char} {c : Char}
    (hl : l ∈ ls) (hc : c ∈ keepLine l) : c ∈ gatherContent ls := by
  induction ls with
  | nil => simp at hl
  | cons x xs ih =>
    rw [gatherContent, List.mem_append]
    rcases List.mem_cons.mp hl with h1 | h2
    · exact Or.inl (h1 ▸ hc)
    · exact Or.inr (ih h2)

theorem gather_trim_ne_nil {ls : List (List Char)} (h : gatherContent ls ≠ []) :
    (trimJS (gatherContent ls)).isEmpty = false := by
  obtain ⟨l, hl, hk⟩ := gather_exists_ne h
  obtain ⟨c, cs, htr, _, hkeq⟩ := keepLine_struct hk
  have hcws : isWS c = false := trimJS_head_not_ws htr
  have hcmem : c ∈ gatherContent ls :=
    mem_gatherContent_of hl (by rw [hkeq]; exact List.mem_append_left _ (List.mem_cons_self _ _))
  have hne : trimJS (gatherContent ls) ≠ [] := by
    intro hnil
    have := (trimJS_eq_nil_iff.mp hnil) c hcmem
    rw [hcws] at this
    exact Bool.false_ne_true this
  cases htg : trimJS (gatherContent ls) with
  | nil => exact absurd htg hne
  | cons a t => rfl

theorem gather_nil_of_trim_nil : ∀ {ls : List (List Char)},
    (∀ l ∈ ls, trimJS l = []) → gatherContent ls = [] := by
  intro ls
  induction ls with
  | nil => intro _; rfl
  | cons l ls ih =>
    intro h
    have h1 : keepLine l = [] := by
      simp only [keepLine, h l (List.mem_cons_self _ _)]
    rw [gatherContent, h1, List.nil_append]
    exact ih (fun x hx => h x (List.mem_cons_of_mem _ hx))

/-- C1 (counterexample): on the input
`"1. OVERVIEW\nGood code.\n2. ISSUES\n- too long\n- no tests\n"` the parser
yields a single section, not the two sections the claim asserts: the lines
`"1. OVERVIEW"` and `"2. ISSUES"` are too short for any header regex
(`/^\d+\.\s*[A-Z\s&]{10,}$/` needs ten class characters after the ordinal). -/
theorem c1_counterexample :
    (parseDetailedAnalysis
      ("1. OVERVIEW\nGood code.\n2. ISSUES\n- too long\n- no tests\n".data)).length = 1 := by
  decide

/-- C1 (amended): on that input the parser returns exactly one section
titled "General Analysis" whose content is a one-item list `OVERVIEW`, the
paragraph `Good code.`, and a three-item list `ISSUES`, `too long`,
`no tests`. -/
theorem c1_scenario_actual :
    parseDetailedAnalysis
        ("1. OVERVIEW\nGood code.\n2. ISSUES\n- too long\n- no tests\n".data) =
      [⟨generalAnalysisTitle,
        ("<ul class=\"analysis-list\"><li>OVERVIEW</li></ul><p>Good code.</p><ul class=\"analysis-list\"><li>ISSUES</li><li>too long</li><li>no tests</li></ul>").data⟩] := by
  decide

/-- C3 (counterexample): on the whitespace-only input `" \n "` the
displayed output has no sections at all, not a single placeholder section:
blank content is never flushed by `parseDetailedAnalysis`. -/
theorem c3_counterexample :
    displayedSections (" \n ".data) = [] ∧ displayedSections ([] : List Char) = [] := by
  decide

/-- C3 (amended): for every empty or whitespace-only detailed-analysis
input, `parseDetailedAnalysis` returns no sections, so the renderer
displays an empty section container (no placeholder is produced). -/
theorem c3_whitespace_amended (s : List Char) (h : ∀ c ∈ s, isWS c = true) :
    parseDetailedAnalysis s = [] ∧ displayedSections s = [] := by
  have hlines : ∀ l ∈ splitNl s, trimJS l = [] := by
    intro l hl
    apply trimJS_eq_nil_iff.mpr
    intro c hc
    exact h c (mem_of_mem_splitNl hl hc)
  have hnh : ∀ l ∈ splitNl s, isSectionHeader (trimJS l) = false := by
    intro l hl
    rw [hlines l hl]
    decide
  have hg : gatherContent (splitNl s) = [] := gather_nil_of_trim_nil hlines
  have hp : parseDetailedAnalysis s = [] := by
    rw [parse_noheader hnh, hg]
    rfl
  exact ⟨hp, by unfold displayedSections; rw [hp]; rfl⟩

/-- C3 witness: the amended statement at the concrete input `"  "`. -/
theorem c3_whitespace_witness :
    parseDetailedAnalysis ("  ".data) = [] ∧ displayedSections ("  ".data) = [] :=
  c3_whitespace_amended ("  ".data) (by decide)

/-- C4 (counterexample): the empty input has no section-header line, yet
`parseDetailedAnalysis` returns zero sections, not one. -/
theorem c4_counterexample :
    (∀ l ∈ splitNl ([] : List Char), isSectionHeader (trimJS l) = false) ∧
    parseDetailedAnalysis ([] : List Char) = [] := by
  constructor
  · decide
  · rfl

/-- C4 (amended): if no line of the input is classified as a section
header and at least one line contributes content (is non-empty after
trimming and does not start with `#`), then `parseDetailedAnalysis`
returns exactly one section titled "General Analysis" whose content is
the formatted accumulation of exactly those lines; with no contributing
line it returns no sections. -/
theorem c4_general_amended (s : List Char)
    (h1 : ∀ l ∈ splitNl s, isSectionHeader (trimJS l) = false)
    (h2 : gatherContent (splitNl s) ≠ []) :
    parseDetailedAnalysis s =
      [⟨generalAnalysisTitle, formatSectionContent (gatherContent (splitNl s))⟩] := by
  rw [parse_noheader h1]
  simp [gather_trim_ne_nil h2]

/-- C4 witness: the amended statement at the concrete input
`"Good code."`. -/
theorem c4_general_witness :
    parseDetailedAnalysis ("Good code.".data) =
      [⟨generalAnalysisTitle,
        formatSectionContent (gatherContent (splitNl ("Good code.".data)))⟩] :=
  c4_general_amended ("Good code.".data) (by decide) (by decide)

theorem foldl_fscStep : ∀ (ls : List (List Char)) (acc : List Char) (b : Bool),
    List.foldl fscStep (acc, b) ls = (acc ++ emitRaw ls b, endFlag ls b) := by
  intro ls
  induction ls with
  | nil => intro acc b; simp [emitRaw, endFlag]
  | cons l ls ih =>
    intro acc b
    rw [List.foldl_cons]
    by_cases he : (trimJS l).isEmpty
    · simp only [fscStep, emitRaw, endFlag, he, if_true]
      exact ih acc b
    · by_cases hb : isBulletLine (trimJS l)
      · cases b <;>
          simp [fscStep, emitRaw, endFlag, he, hb, ih, List.append_assoc]
      · by_cases hlen : 5 < (trimJS l).length
        · cases b <;>
            simp [fscStep, emitRaw, endFlag, pChunk, he, hb, hlen, ih, List.append_assoc]
        · cases b <;>
            simp [fscStep, emitRaw, endFlag, pChunk, he, hb, hlen, ih, List.append_assoc]

theorem isEmpty_false_of_ne_nil {l : List Char} (h : l ≠ []) : l.isEmpty = false := by
  cases l with
  | nil => exact absurd rfl h
  | cons a t => rfl

theorem emitRaw_bullet_run :
    ∀ (bs : List (List Char)) (r : List Char) (rs : List (List Char)),
    (∀ l ∈ bs, (trimJS l).head? = some '-') →
    trimJS r ≠ [] → isBulletLine (trimJS r) = false →
    emitRaw (bs ++ r :: rs) true =
      (bs.map liChunkOf).flatten ++ ulClose ++ pChunk (trimJS r) ++ emitRaw rs false := by
  intro bs
  induction bs with
  | nil =>
    intro r rs _ hr hrb
    have hne : (trimJS r).isEmpty = false := isEmpty_false_of_ne_nil hr
    simp [emitRaw, hne, hrb]
  | cons b0 bs ih =>
    intro r rs hb hr hrb
    have h0 : (trimJS b0).head? = some '-' := hb b0 (List.mem_cons_self _ _)
    have hne : (trimJS b0).isEmpty = false := by
      cases htr : trimJS b0 with
      | nil => rw [htr] at h0; simp at h0
      | cons a t => rfl
    have hbul : isBulletLine (trimJS b0) = true := by
      unfold isBulletLine
      rw [h0]
      simp
    rw [List.cons_append]
    simp only [emitRaw, hne, hbul, if_false, if_true, Bool.false_eq_true]
    rw [ih r rs (fun l hl => hb l (List.mem_cons_of_mem _ hl)) hr hrb]
    simp [liChunkOf, List.append_assoc]

/-- C5: in the `formatSectionContent` loop, a run of consecutive
`-`-prefixed lines starting outside a list is rendered as exactly one
`<ul>` containing one `<li>` per line of the run in input order, and the
first following non-bullet line emits `</ul>` before any further
output. -/
theorem c5_bullet_grouping (acc : List Char) (bs : List (List Char)) (r : List Char)
    (rs : List (List Char)) (hne : bs ≠ [])
    (hb : ∀ l ∈ bs, (trimJS l).head? = some '-')
    (hr : trimJS r ≠ []) (hrb : isBulletLine (trimJS r) = false) :
    (List.foldl fscStep (acc, false) (bs ++ r :: rs)).1 =
      acc ++ ulOpen ++ (bs.map liChunkOf).flatten ++ ulClose ++
        pChunk (trimJS r) ++ emitRaw rs false := by
  rw [foldl_fscStep]
  cases bs with
  | nil => exact absurd rfl hne
  | cons b0 bs' =>
    have h0 : (trimJS b0).head? = some '-' := hb b0 (List.mem_cons_self _ _)
    have hne0 : (trimJS b0).isEmpty = false := by
      cases htr : trimJS b0 with
      | nil => rw [htr] at h0; simp at h0
      | cons a t => rfl
    have hbul : isBulletLine (trimJS b0) = true := by
      unfold isBulletLine
      rw [h0]
      simp
    rw [List.cons_append]
    simp only [emitRaw, hne0, hbul, if_false, if_true, Bool.false_eq_true]
    rw [emitRaw_bullet_run bs' r rs (fun l hl => hb l (List.mem_cons_of_mem _ hl)) hr hrb]
    simp [liChunkOf, List.append_assoc]

/-- C5 witness: the grouping theorem at the concrete lines
`["- alpha", "- beta", "a paragraph"]`. -/
theorem c5_bullet_grouping_witness :
    (List.foldl fscStep ([], false)
        [("- alpha".data), ("- beta".data), ("a paragraph".data)]).1 =
      [] ++ ulOpen ++
        ([("- alpha".data), ("- beta".data)].map liChunkOf).flatten ++ ulClose ++
        pChunk (trimJS ("a paragraph".data)) ++ emitRaw [] false :=
  c5_bullet_grouping [] [("- alpha".data), ("- beta".data)] ("a paragraph".data) []
    (by decide) (by decide) (by decide) (by decide)

theorem mem_of_head?_eq {α : Type} {l : List α} {c : α} (h : l.head? = some c) : c ∈ l := by
  cases l with
  | nil => simp at h
  | cons a t =>
    simp only [List.head?_cons, Option.some.injEq] at h
    rw [← h]
    exact List.mem_cons_self _ _

theorem head?_append_of_head? {α : Type} {l r : List α} {c : α}
    (h : l.head? = some c) : (l ++ r).head? = some c := by
  cases l with
  | nil => simp at h
  | cons a t => simpa using h

theorem trim_isEmpty_false_of_mem {l : List Char} {c : Char}
    (hc : c ∈ l) (hw : isWS c = false) : (trimJS l).isEmpty = false := by
  have hne : trimJS l ≠ [] := by
    intro hnil
    have := (trimJS_eq_nil_iff.mp hnil) c hc
    rw [hw] at this
    exact Bool.false_ne_true this
  cases htg : trimJS l with
  | nil => exact absurd htg hne
  | cons a t => rfl

theorem emitRaw_head : ∀ (ls : List (List Char)) (b : Bool),
    emitRaw ls b = [] ∨ (emitRaw ls b).head? = some '<' := by
  intro ls
  induction ls with
  | nil => intro b; exact Or.inl rfl
  | cons l ls ih =>
    intro b
    by_cases he : (trimJS l).isEmpty
    · simp only [emitRaw, he, if_true]
      exact ih b
    · by_cases hb : isBulletLine (trimJS l)
      · right
        cases b
        · simp only [emitRaw, he, hb, Bool.false_eq_true, if_false, if_true]
          rfl
        · simp only [emitRaw, he, hb, if_true, List.nil_append]
          rfl
      · by_cases hlen : 5 < (trimJS l).length
        · right
          cases b
          · simp only [emitRaw, he, hb, Bool.false_eq_true, if_false, List.nil_append,
              pChunk, hlen, if_true, List.append_assoc]
            rfl
          · simp only [emitRaw, he, hb, Bool.false_eq_true, if_false, if_true]
            rfl
        · cases b
          · simp only [emitRaw, he, hb, Bool.false_eq_true, if_false, List.nil_append,
              pChunk, hlen]
            exact ih false
          · right
            simp only [emitRaw, he, hb, Bool.false_eq_true, if_false, if_true]
            rfl

theorem fsc_trim_isEmpty_false (s : List Char) :
    (trimJS (formatSectionContent s)).isEmpty = false := by
  unfold formatSectionContent
  by_cases he : (trimJS s).isEmpty
  · rw [if_pos he]
    decide
  · rw [if_neg he]
    simp only [foldl_fscStep, List.nil_append]
    set lines := (splitNl (trimJS (replaceItal (replaceBold (stripHashes s))))).filter
        (fun l => !(trimJS l).isEmpty) with hlines
    rcases emitRaw_head lines false with hnil | hlt
    · rw [hnil]
      cases hf : endFlag lines false
      · simp only [Bool.false_eq_true, if_false, List.nil_append, List.isEmpty_nil, if_true]
        decide
      · simp only [if_true, List.nil_append]
        have : (ulClose : List Char).isEmpty = false := by decide
        rw [if_neg (by rw [this]; exact Bool.false_ne_true)]
        exact trim_isEmpty_false_of_mem (l := ulClose) (c := '<') (by decide) (by decide)
    · have hne : emitRaw lines false ≠ [] := by
        intro hn
        rw [hn] at hlt
        simp at hlt
      have hfull : (emitRaw lines false ++ if endFlag lines false then ulClose else []).head? =
          some '<' := head?_append_of_head? hlt
      have hfne : (emitRaw lines false ++
          if endFlag lines false then ulClose else []).isEmpty = false := by
        cases hc : emitRaw lines false ++ (if endFlag lines false then ulClose else []) with
        | nil => rw [hc] at hfull; simp at hfull
        | cons a t => rfl
      rw [if_neg (by rw [hfne]; exact Bool.false_ne_true)]
      exact trim_isEmpty_false_of_mem (mem_of_head?_eq hfull) (by decide)

theorem foldl_stepLine_sections :
    ∀ (ls : List (List Char)) (st : List AnalysisSection × (List Char × List Char)),
    (∀ sec ∈ st.1, (trimJS sec.content).isEmpty = false) →
    ∀ sec ∈ (List.foldl stepLine st ls).1, (trimJS sec.content).isEmpty = false := by
  intro ls
  induction ls with
  | nil => intro st h; exact h
  | cons l ls ih =>
    intro st h
    rw [List.foldl_cons]
    apply ih
    unfold stepLine
    by_cases hh : isSectionHeader (trimJS l)
    · simp only [hh, if_true]
      by_cases hc : (trimJS st.2.2).isEmpty
      · simp only [hc, if_true]
        exact h
      · simp only [hc, Bool.false_eq_true, if_false]
        intro sec hs
        rcases List.mem_append.mp hs with h1 | h2
        · exact h sec h1
        · have : sec = ⟨st.2.1, formatSectionContent st.2.2⟩ := by simpa using h2
          rw [this]
          exact fsc_trim_isEmpty_false st.2.2
    · simp only [hh, Bool.false_eq_true, if_false]
      cases htr : trimJS l with
      | nil => exact h
      | cons a cs =>
        by_cases ha : a = '#'
        · simp only [ha, if_true]
          exact h
        · simp only [ha, if_false]
          exact h

theorem parse_sections_nonblank {d : List Char} :
    ∀ sec ∈ parseDetailedAnalysis d, (trimJS sec.content).isEmpty = false := by
  intro sec hs
  unfold parseDetailedAnalysis at hs
  set st := List.foldl stepLine ([], (generalAnalysisTitle, [])) (splitNl d) with hst
  have hfold : ∀ x ∈ st.1, (trimJS x.content).isEmpty = false := by
    rw [hst]
    exact foldl_stepLine_sections (splitNl d) ([], (generalAnalysisTitle, [])) (by simp)
  by_cases hc : (trimJS st.2.2).isEmpty
  · rw [if_pos hc] at hs
    exact hfold sec hs
  · rw [if_neg hc] at hs
    rcases List.mem_append.mp hs with h1 | h2
    · exact hfold sec h1
    · have : sec = ⟨st.2.1, formatSectionContent st.2.2⟩ := by simpa using h2
      rw [this]
      exact fsc_trim_isEmpty_false st.2.2

/-- C10: `formatSectionContent` always returns a string that is non-blank
after trimming (formatted content or an italic placeholder), so every
section produced by `parseDetailedAnalysis` has non-blank content and the
renderer's blank-section skip branch never drops a section. -/
theorem c10_nonblank_content (s d : List Char) :
    (trimJS (formatSectionContent s)).isEmpty = false ∧
    displayedSections d = parseDetailedAnalysis d := by
  refine ⟨fsc_trim_isEmpty_false s, ?_⟩
  unfold displayedSections
  apply List.filter_eq_self.mpr
  intro sec hs
  rw [parse_sections_nonblank sec hs]
  rfl

/-- C2 (counterexample): with a non-empty access token but empty git URL
and manual code and no files, `handleAnalyze` shows the local error and
issues no request — the code never consults `accessToken` in its
validation, contrary to the claim. -/
theorem c2_counterexample :
    (trimJS ("token".data)).isEmpty = false ∧
    issuesRequest (handleAnalyze initialState [] ("token".data) [] (FetchOutcome.exn [])).2 =
      false ∧
    (handleAnalyze initialState [] ("token".data) [] (FetchOutcome.exn [])).2 =
      [Event.showError provideCodeMsg] := by
  decide

/-- C2 (amended): `handleAnalyze` fails locally with the "provide code"
error and issues no network request exactly when the trimmed `gitUrl` and
`manualCode` are both empty and no uploaded file is present; the access
token plays no role in the validation. -/
theorem c2_validation_amended (st : SessionState) (g t c : List Char)
    (r : FetchOutcome AnalyzePayload) :
    (issuesRequest (handleAnalyze st g t c r).2 = false ↔
      ((trimJS g).isEmpty && (trimJS c).isEmpty && (st.currentFiles.length == 0)) = true) ∧
    (((trimJS g).isEmpty && (trimJS c).isEmpty && (st.currentFiles.length == 0)) = true →
      (handleAnalyze st g t c r).2 = [Event.showError provideCodeMsg]) := by
  by_cases hv : ((trimJS g).isEmpty && (trimJS c).isEmpty && (st.currentFiles.length == 0)) = true
  · constructor
    · simp [handleAnalyze, hv, issuesRequest, isRequestEvent]
    · intro _
      simp [handleAnalyze, hv]
  · constructor
    · cases r <;> simp [handleAnalyze, hv, issuesRequest, isRequestEvent]
    · intro hcon
      exact absurd hcon hv

/-- C2 witness: the amended statement at the all-empty concrete input. -/
theorem c2_validation_witness :
    (issuesRequest (handleAnalyze initialState [] [] [] (FetchOutcome.exn [])).2 = false ↔
      ((trimJS ([] : List Char)).isEmpty && (trimJS ([] : List Char)).isEmpty &&
        (initialState.currentFiles.length == 0)) = true) ∧
    (((trimJS ([] : List Char)).isEmpty && (trimJS ([] : List Char)).isEmpty &&
        (initialState.currentFiles.length == 0)) = true →
      (handleAnalyze initialState [] [] [] (FetchOutcome.exn [])).2 =
        [Event.showError provideCodeMsg]) :=
  c2_validation_amended initialState [] [] [] (FetchOutcome.exn [])

/-- C7: `handleGenerateTests` and `handleGenerateDocument` issue their
request exactly when a cache key is held (JS-truthy `currentCacheKey`);
with no cache key each shows only the local "Please analyze code first"
error and issues no request. -/
theorem c7_cache_key_guard (st : SessionState) (rt : FetchOutcome TestsPayload)
    (rd : FetchOutcome DocPayload) :
    (issuesRequest (handleGenerateTests st rt).2 = cacheKeyPresent st) ∧
    (issuesRequest (handleGenerateDocument st rd).2 = cacheKeyPresent st) ∧
    (cacheKeyPresent st = false →
      (handleGenerateTests st rt).2 = [Event.showError pleaseAnalyzeMsg] ∧
      (handleGenerateDocument st rd).2 = [Event.showError pleaseAnalyzeMsg]) := by
  by_cases hk : cacheKeyPresent st = true
  · refine ⟨?_, ?_, fun hcon => absurd (hk.symm.trans hcon) (by simp)⟩
    · cases rt <;> simp [handleGenerateTests, hk, issuesRequest, isRequestEvent]
    · cases rd <;> simp [handleGenerateDocument, hk, issuesRequest, isRequestEvent]
  · have hkf : cacheKeyPresent st = false := by simpa using hk
    refine ⟨?_, ?_, fun _ => ⟨?_, ?_⟩⟩ <;>
      simp [handleGenerateTests, handleGenerateDocument, hkf, issuesRequest, isRequestEvent]

/-- C7 witness: the guard at the initial state (no cache key) with
concrete failure outcomes. -/
theorem c7_cache_key_guard_witness :
    (issuesRequest (handleGenerateTests initialState (FetchOutcome.exn [])).2 =
      cacheKeyPresent initialState) ∧
    (issuesRequest (handleGenerateDocument initialState (FetchOutcome.exn [])).2 =
      cacheKeyPresent initialState) ∧
    (cacheKeyPresent initialState = false →
      (handleGenerateTests initialState (FetchOutcome.exn [])).2 =
        [Event.showError pleaseAnalyzeMsg] ∧
      (handleGenerateDocument initialState (FetchOutcome.exn [])).2 =
        [Event.showError pleaseAnalyzeMsg]) :=
  c7_cache_key_guard initialState (FetchOutcome.exn []) (FetchOutcome.exn [])

theorem handleAnalyze_files (st : SessionState) (g t c : List Char)
    (r : FetchOutcome AnalyzePayload) :
    (handleAnalyze st g t c r).1.currentFiles = st.currentFiles := by
  by_cases hv : ((trimJS g).isEmpty && (trimJS c).isEmpty && (st.currentFiles.length == 0)) = true
  · simp [handleAnalyze, hv]
  · cases r <;> simp [handleAnalyze, hv]

theorem handleFileUpload_files (st : SessionState) (files : List (List Char))
    (r : FetchOutcome AnalyzePayload) :
    (handleFileUpload st files r).1.currentFiles = st.currentFiles := by
  by_cases hv : (files.length == 0) = true
  · simp [handleFileUpload, hv]
  · cases r <;> simp [handleFileUpload, hv]

theorem handleGenerateTests_files (st : SessionState) (r : FetchOutcome TestsPayload) :
    (handleGenerateTests st r).1.currentFiles = st.currentFiles := by
  by_cases hk : cacheKeyPresent st = true
  · cases r <;> simp [handleGenerateTests, hk]
  · simp [handleGenerateTests, hk]

theorem handleGenerateDocument_files (st : SessionState) (r : FetchOutcome DocPayload) :
    (handleGenerateDocument st r).1.currentFiles = st.currentFiles := by
  by_cases hk : cacheKeyPresent st = true
  · cases r <;> simp [handleGenerateDocument, hk]
  · simp [handleGenerateDocument, hk]

/-- C8: `currentFiles` is `[]` in the constructor state and no handler
(including `handleFileUpload`) ever assigns it, so in every reachable
state the file-presence disjunct of the `handleAnalyze` validation
(`currentFiles.length !== 0`) is never satisfied. -/
theorem c8_current_files_invariant (st : SessionState) (h : Reachable st) :
    st.currentFiles = [] ∧ (st.currentFiles.length == 0) = true := by
  have hfiles : st.currentFiles = [] := by
    induction h with
    | init => rfl
    | analyze _ ih => rw [handleAnalyze_files]; exact ih
    | upload _ ih => rw [handleFileUpload_files]; exact ih
    | genTests _ ih => rw [handleGenerateTests_files]; exact ih
    | genDoc _ ih => rw [handleGenerateDocument_files]; exact ih
  exact ⟨hfiles, by rw [hfiles]; rfl⟩

/-- C8 witness: the invariant at the initial state. -/
theorem c8_current_files_witness :
    initialState.currentFiles = [] ∧ (initialState.currentFiles.length == 0) = true :=
  c8_current_files_invariant initialState Reachable.init

/-- C9: on any failure outcome (`success:false` or a thrown error) every
handler leaves the whole session state — in particular `currentAnalysis`
and `currentCacheKey` — unchanged; `handleGenerateTests` and
`handleGenerateDocument` never modify the state at all. -/
theorem c9_failure_atomicity (st : SessionState) (g t c : List Char)
    (files : List (List Char)) (ra ru : FetchOutcome AnalyzePayload)
    (rt : FetchOutcome TestsPayload) (rd : FetchOutcome DocPayload)
    (ha : isFailureOutcome ra = true) (hu : isFailureOutcome ru = true) :
    (handleAnalyze st g t c ra).1 = st ∧
    (handleFileUpload st files ru).1 = st ∧
    (handleGenerateTests st rt).1 = st ∧
    (handleGenerateDocument st rd).1 = st := by
  refine ⟨?_, ?_, ?_, ?_⟩
  · cases ra with
    | ok p => simp [isFailureOutcome] at ha
    | fail e =>
      by_cases hv : ((trimJS g).isEmpty && (trimJS c).isEmpty &&
          (st.currentFiles.length == 0)) = true <;> simp [handleAnalyze, hv]
    | exn m =>
      by_cases hv : ((trimJS g).isEmpty && (trimJS c).isEmpty &&
          (st.currentFiles.length == 0)) = true <;> simp [handleAnalyze, hv]
  · cases ru with
    | ok p => simp [isFailureOutcome] at hu
    | fail e =>
      by_cases hv : (files.length == 0) = true <;> simp [handleFileUpload, hv]
    | exn m =>
      by_cases hv : (files.length == 0) = true <;> simp [handleFileUpload, hv]
  · by_cases hk : cacheKeyPresent st = true
    · cases rt <;> simp [handleGenerateTests, hk]
    · simp [handleGenerateTests, hk]
  · by_cases hk : cacheKeyPresent st = true
    · cases rd <;> simp [handleGenerateDocument, hk]
    · simp [handleGenerateDocument, hk]

/-- C9 witness: the atomicity statement at the initial state with
concrete failure outcomes. -/
theorem c9_failure_atomicity_witness :
    (handleAnalyze initialState [] [] [] (FetchOutcome.fail none)).1 = initialState ∧
    (handleFileUpload initialState [] (FetchOutcome.fail none)).1 = initialState ∧
    (handleGenerateTests initialState (FetchOutcome.exn [])).1 = initialState ∧
    (handleGenerateDocument initialState (FetchOutcome.exn [])).1 = initialState :=
  c9_failure_atomicity initialState [] [] [] [] (FetchOutcome.fail none)
    (FetchOutcome.fail none) (FetchOutcome.exn []) (FetchOutcome.exn [])
    (by decide) (by decide)

theorem stripHashesAux_id : ∀ {l : List Char}, (∀ c ∈ l, c ≠ '#') →
    stripHashesAux l false = l := by
  intro l
  induction l with
  | nil => intro _; rfl
  | cons a rest ih =>
    intro h
    have ha : a ≠ '#' := h a (List.mem_cons_self _ _)
    rw [show stripHashesAux (a :: rest) false = a :: stripHashesAux rest false by
      simp [stripHashesAux, ha]]
    rw [ih (fun c hc => h c (List.mem_cons_of_mem _ hc))]

theorem replaceBoldAux_id : ∀ {l : List Char}, (∀ c ∈ l, c ≠ '*') →
    replaceBoldAux l none = l := by
  intro l
  induction l with
  | nil => intro _; rfl
  | cons a rest ih =>
    intro h
    have ha : a ≠ '*' := h a (List.mem_cons_self _ _)
    rw [show replaceBoldAux (a :: rest) none = a :: replaceBoldAux rest none by
      simp [replaceBoldAux, ha]]
    rw [ih (fun c hc => h c (List.mem_cons_of_mem _ hc))]

theorem replaceItalAux_id : ∀ {l : List Char}, (∀ c ∈ l, c ≠ '*') →
    replaceItalAux l none = l := by
  intro l
  induction l with
  | nil => intro _; rfl
  | cons a rest ih =>
    intro h
    have ha : a ≠ '*' := h a (List.mem_cons_self _ _)
    rw [show replaceItalAux (a :: rest) none = a :: replaceItalAux rest none by
      simp [replaceItalAux, ha]]
    rw [ih (fun c hc => h c (List.mem_cons_of_mem _ hc))]

theorem joinLines_flatten : ∀ (E : List (List Char)), E ≠ [] →
    (E.map (fun e => e ++ ['\n'])).flatten = joinLines E ++ ['\n'] := by
  intro E
  induction E with
  | nil => intro h; exact absurd rfl h
  | cons e es ih =>
    intro _
    cases es with
    | nil => simp [joinLines]
    | cons e2 es2 =>
      rw [List.map_cons, List.flatten_cons, ih (by simp)]
      rw [show joinLines (e :: e2 :: es2) = e ++ '\n' :: joinLines (e2 :: es2) from rfl]
      simp [List.append_assoc]

theorem splitNl_joinLines : ∀ (E : List (List Char)), E ≠ [] →
    (∀ e ∈ E, '\n' ∉ e) → splitNl (joinLines E) = E := by
  intro E
  induction E with
  | nil => intro h _; exact absurd rfl h
  | cons e es ih =>
    intro _ h
    cases es with
    | nil =>
      rw [show joinLines [e] = e from rfl]
      exact splitNl_of_no_newline (h e (List.mem_cons_self _ _))
    | cons e2 es2 =>
      have he : '\n' ∉ e := h e (List.mem_cons_self _ _)
      rw [show joinLines (e :: e2 :: es2) = e ++ '\n' :: joinLines (e2 :: es2) from rfl]
      rw [splitNl_append_newline _ he]
      rw [ih (by simp) (fun x hx => h x (List.mem_cons_of_mem _ hx))]

theorem joinLines_head_eq (e : List Char) (es : List (List Char)) (he : e ≠ []) :
    (joinLines (e :: es)).head? = e.head? := by
  cases es with
  | nil => rfl
  | cons e2 es2 =>
    cases e with
    | nil => exact absurd rfl he
    | cons a t => rfl

theorem joinLines_ne_nil (e : List Char) (es : List (List Char)) (he : e ≠ []) :
    joinLines (e :: es) ≠ [] := by
  cases es with
  | nil => exact he
  | cons e2 es2 =>
    rw [show joinLines (e :: e2 :: es2) = e ++ '\n' :: joinLines (e2 :: es2) from rfl]
    simp

theorem joinLines_reverse_head : ∀ (E : List (List Char)), E ≠ [] → (∀ e ∈ E, e ≠ []) →
    ∃ x ∈ E, (joinLines E).reverse.head? = x.reverse.head? := by
  intro E
  induction E with
  | nil => intro h _; exact absurd rfl h
  | cons e es ih =>
    intro _ hne
    cases es with
    | nil => exact ⟨e, List.mem_cons_self _ _, rfl⟩
    | cons e2 es2 =>
      obtain ⟨x, hx, hxe⟩ := ih (by simp) (fun y hy => hne y (List.mem_cons_of_mem _ hy))
      refine ⟨x, List.mem_cons_of_mem _ hx, ?_⟩
      have hxne : x ≠ [] := hne x (List.mem_cons_of_mem _ hx)
      have hxr : ∃ c t', x.reverse = c :: t' := by
        cases hxrev : x.reverse with
        | nil => exact absurd (by simpa using hxrev) hxne
        | cons c t' => exact ⟨c, t', rfl⟩
      obtain ⟨c, t', hxrev⟩ := hxr
      have hxe' : (joinLines (e2 :: es2)).reverse.head? = some c := by
        rw [hxe, hxrev]; rfl
      rw [show joinLines (e :: e2 :: es2) = e ++ '\n' :: joinLines (e2 :: es2) from rfl]
      rw [List.reverse_append, List.reverse_cons, hxrev]
      rw [head?_append_of_head? (head?_append_of_head? hxe')]
      rfl

theorem trimJS_append_newline {x : List Char} {a b : Char} {t u : List Char}
    (hx : x = a :: t) (hrev : x.reverse = b :: u)
    (hha : isWS a = false) (hhb : isWS b = false) :
    trimJS (x ++ ['\n']) = x := by
  unfold trimJS
  have h1 : List.dropWhile isWS (x ++ ['\n']) = x ++ ['\n'] := by
    rw [hx, List.cons_append]
    exact dropWhile_of_head_false hha
  rw [h1]
  have h2 : (x ++ ['\n']).reverse = '\n' :: x.reverse := by simp
  rw [h2]
  have h3 : List.dropWhile isWS ('\n' :: x.reverse) = List.dropWhile isWS x.reverse := by
    rw [List.dropWhile_cons]
    simp [isWS]
  rw [h3, hrev, dropWhile_of_head_false hhb, ← hrev, List.reverse_reverse]

theorem gather_eq_flatten : ∀ (ls : List (List Char)),
    (∀ l ∈ ls, (trimJS l).head? ≠ some '#') →
    gatherContent ls =
      (((ls.map trimJS).filter (fun e => !e.isEmpty)).map (fun e => e ++ ['\n'])).flatten := by
  intro ls
  induction ls with
  | nil => intro _; rfl
  | cons l rest ih =>
    intro h
    have hrest := ih (fun x hx => h x (List.mem_cons_of_mem _ hx))
    rw [gatherContent, List.map_cons]
    cases htr : trimJS l with
    | nil =>
      have hk : keepLine l = [] := by simp [keepLine, htr]
      rw [hk, List.nil_append, hrest]
      simp [List.filter_cons]
    | cons a cs =>
      have ha : a ≠ '#' := by
        have := h l (List.mem_cons_self _ _)
        rw [htr] at this
        simpa using this
      have hk : keepLine l = (a :: cs) ++ ['\n'] := by simp [keepLine, htr, ha]
      rw [hk, hrest]
      simp [List.filter_cons]

theorem emitRaw_paragraphs : ∀ (E : List (List Char)),
    (∀ e ∈ E, trimJS e = e) → (∀ e ∈ E, e ≠ []) → (∀ e ∈ E, isBulletLine e = false) →
    emitRaw E false = (E.map pChunk).flatten ∧ endFlag E false = false := by
  intro E
  induction E with
  | nil => intro _ _ _; exact ⟨rfl, rfl⟩
  | cons e es ih =>
    intro h1 h2 h3
    have he1 : trimJS e = e := h1 e (List.mem_cons_self _ _)
    have hene : e ≠ [] := h2 e (List.mem_cons_self _ _)
    have he2 : (trimJS e).isEmpty = false := by
      rw [he1]; exact isEmpty_false_of_ne_nil hene
    have he3 : isBulletLine (trimJS e) = false := by
      rw [he1]; exact h3 e (List.mem_cons_self _ _)
    obtain ⟨ihe, ihf⟩ := ih (fun x hx => h1 x (List.mem_cons_of_mem _ hx))
      (fun x hx => h2 x (List.mem_cons_of_mem _ hx))
      (fun x hx => h3 x (List.mem_cons_of_mem _ hx))
    constructor
    · simp only [emitRaw, he2, he3, Bool.false_eq_true, if_false, List.nil_append]
      rw [ihe, he1, List.map_cons, List.flatten_cons]
    · simp only [endFlag, he2, he3, Bool.false_eq_true, if_false]
      exact ihf

theorem flatten_pchunk_ne : ∀ {E : List (List Char)} {e : List Char}, e ∈ E →
    pChunk e ≠ [] → (E.map pChunk).flatten ≠ [] := by
  intro E
  induction E with
  | nil => intro e he _; simp at he
  | cons x xs ih =>
    intro e he hp
    rw [List.map_cons, List.flatten_cons]
    intro hcontra
    rcases List.append_eq_nil.mp hcontra with ⟨hx, hxs⟩
    rcases List.mem_cons.mp he with h1 | h2
    · exact hp (h1 ▸ hx)
    · exact ih h2 hp hxs

theorem stripTagsAux_copy : ∀ {e : List Char}, (∀ c ∈ e, c ≠ '<') →
    ∀ (rest : List Char), stripTagsAux (e ++ rest) false = e ++ stripTagsAux rest false := by
  intro e
  induction e with
  | nil => intro _ rest; rfl
  | cons a t ih =>
    intro h rest
    have ha : a ≠ '<' := h a (List.mem_cons_self _ _)
    rw [List.cons_append,
      show stripTagsAux (a :: (t ++ rest)) false = a :: stripTagsAux (t ++ rest) false by
        simp [stripTagsAux, ha]]
    rw [ih (fun c hc => h c (List.mem_cons_of_mem _ hc)) rest, List.cons_append]

theorem stripTags_pchunk (e : List Char) (h : ∀ c ∈ e, c ≠ '<') (rest : List Char) :
    stripTagsAux (pChunk e ++ rest) false =
      (if 5 < e.length then e else []) ++ stripTagsAux rest false := by
  by_cases hlen : 5 < e.length
  · simp only [pChunk, hlen, if_true]
    rw [show (pOpen ++ e ++ pClose) ++ rest = pOpen ++ (e ++ (pClose ++ rest)) by
      simp [List.append_assoc]]
    rw [show stripTagsAux (pOpen ++ (e ++ (pClose ++ rest))) false =
        stripTagsAux (e ++ (pClose ++ rest)) false from rfl]
    rw [stripTagsAux_copy h (pClose ++ rest)]
    rw [show stripTagsAux (pClose ++ rest) false = stripTagsAux rest false from rfl]
  · simp only [pChunk, hlen, if_false]
    rfl

theorem stripTags_flatten : ∀ (E : List (List Char)), (∀ e ∈ E, ∀ c ∈ e, c ≠ '<') →
    stripTagsAux ((E.map pChunk).flatten) false =
      (E.filter (fun e => 5 < e.length)).flatten := by
  intro E
  induction E with
  | nil => intro _; rfl
  | cons e es ih =>
    intro h
    rw [List.map_cons, List.flatten_cons,
      stripTags_pchunk e (h e (List.mem_cons_self _ _)) _,
      ih (fun x hx => h x (List.mem_cons_of_mem _ hx))]
    by_cases hlen : 5 < e.length
    · simp [List.filter_cons, hlen]
    · simp [List.filter_cons, hlen]

theorem fsc_paragraph_pipeline (E : List (List Char)) (hne : E ≠ [])
    (htr : ∀ e ∈ E, trimJS e = e) (hnil : ∀ e ∈ E, e ≠ [])
    (hnl : ∀ e ∈ E, '\n' ∉ e)
    (hstar : ∀ e ∈ E, ∀ c ∈ e, c ≠ '*') (hhash : ∀ e ∈ E, ∀ c ∈ e, c ≠ '#')
    (hb : ∀ e ∈ E, isBulletLine e = false) (hlong : ∃ e ∈ E, 5 < e.length) :
    formatSectionContent ((E.map (fun e => e ++ ['\n'])).flatten) =
      (E.map pChunk).flatten := by
  set g := (E.map (fun e => e ++ ['\n'])).flatten with hg
  have hmemg : ∀ c ∈ g, (∃ e ∈ E, c ∈ e) ∨ c = '\n' := by
    intro c hc
    rw [hg, List.mem_flatten] at hc
    obtain ⟨x, hx, hcx⟩ := hc
    rw [List.mem_map] at hx
    obtain ⟨e, he, rfl⟩ := hx
    rcases List.mem_append.mp hcx with h1 | h2
    · exact Or.inl ⟨e, he, h1⟩
    · exact Or.inr (by simpa using h2)
  have hgsh : ∀ c ∈ g, c ≠ '#' := by
    intro c hc
    rcases hmemg c hc with ⟨e, he, hce⟩ | hnlc
    · exact hhash e he c hce
    · rw [hnlc]; decide
  have hgst : ∀ c ∈ g, c ≠ '*' := by
    intro c hc
    rcases hmemg c hc with ⟨e, he, hce⟩ | hnlc
    · exact hstar e he c hce
    · rw [hnlc]; decide
  have hjoin : g = joinLines E ++ ['\n'] := joinLines_flatten E hne
  obtain ⟨e0, E', rfl⟩ : ∃ e0 E', E = e0 :: E' := by
    cases E with
    | nil => exact absurd rfl hne
    | cons x xs => exact ⟨x, xs, rfl⟩
  have he0 : e0 ≠ [] := hnil e0 (List.mem_cons_self _ _)
  obtain ⟨a, t0, rfl⟩ : ∃ a t0, e0 = a :: t0 := by
    cases e0 with
    | nil => exact absurd rfl he0
    | cons x xs => exact ⟨x, xs, rfl⟩
  have hwa : isWS a = false :=
    trimJS_head_not_ws (htr (a :: t0) (List.mem_cons_self _ _))
  have hJne : joinLines ((a :: t0) :: E') ≠ [] := joinLines_ne_nil _ _ he0
  have hJhead : (joinLines ((a :: t0) :: E')).head? = some a := by
    rw [joinLines_head_eq _ _ he0]; rfl
  obtain ⟨Jt, hJshape⟩ : ∃ Jt, joinLines ((a :: t0) :: E') = a :: Jt := by
    cases hJ : joinLines ((a :: t0) :: E') with
    | nil => exact absurd hJ hJne
    | cons x xs =>
      rw [hJ] at hJhead
      simp only [List.head?_cons, Option.some.injEq] at hJhead
      exact ⟨xs, by rw [hJhead]⟩
  obtain ⟨x, hxE, hxrev⟩ := joinLines_reverse_head ((a :: t0) :: E') (by simp) hnil
  have hxne : x ≠ [] := hnil x hxE
  obtain ⟨b, u, hxr⟩ : ∃ b u, x.reverse = b :: u := by
    cases hx : x.reverse with
    | nil => exact absurd (by simpa using hx) hxne
    | cons c t => exact ⟨c, t, rfl⟩
  have hwb : isWS b = false := by
    apply trimJS_reverse_head_not_ws (l := x)
    rw [htr x hxE, hxr]
  obtain ⟨Ju, hJrev⟩ : ∃ Ju, (joinLines ((a :: t0) :: E')).reverse = b :: Ju := by
    have hh : (joinLines ((a :: t0) :: E')).reverse.head? = some b := by
      rw [hxrev, hxr]
      rfl
    cases hJ : (joinLines ((a :: t0) :: E')).reverse with
    | nil => rw [hJ] at hh; simp at hh
    | cons c t =>
      rw [hJ] at hh
      simp only [List.head?_cons, Option.some.injEq] at hh
      exact ⟨t, by rw [hh]⟩
  have htrim_g : trimJS g = joinLines ((a :: t0) :: E') := by
    rw [hjoin]
    exact trimJS_append_newline hJshape hJrev hwa hwb
  have hgne_trim : (trimJS g).isEmpty = false := by
    rw [htrim_g]
    exact isEmpty_false_of_ne_nil hJne
  have hsh : stripHashes g = g := stripHashesAux_id hgsh
  have hbd : replaceBold g = g := replaceBoldAux_id hgst
  have hit : replaceItal g = g := replaceItalAux_id hgst
  have hsplit : splitNl (joinLines ((a :: t0) :: E')) = (a :: t0) :: E' :=
    splitNl_joinLines _ (by simp) hnl
  have hfilter : ((a :: t0) :: E').filter (fun l => !(trimJS l).isEmpty) = (a :: t0) :: E' :=
    List.filter_eq_self.mpr (fun e he => by
      rw [htr e he, isEmpty_false_of_ne_nil (hnil e he)]
      rfl)
  obtain ⟨hemit, hflag⟩ := emitRaw_paragraphs ((a :: t0) :: E') htr hnil hb
  obtain ⟨estar, hestar, hlenstar⟩ := hlong
  have hpne : pChunk estar ≠ [] := by
    simp [pChunk, hlenstar, pOpen]
  have hfne : ((((a :: t0) :: E').map pChunk).flatten).isEmpty = false :=
    isEmpty_false_of_ne_nil (flatten_pchunk_ne hestar hpne)
  unfold formatSectionContent
  rw [if_neg (by rw [hgne_trim]; exact Bool.false_ne_true)]
  simp only [hsh, hbd, hit, htrim_g, hsplit, hfilter, foldl_fscStep, hemit, hflag,
    List.nil_append, Bool.false_eq_true, if_false, List.append_nil]
  rw [if_neg (by rw [hfne]; exact Bool.false_ne_true)]

/-- C6 (counterexample): the input `"abc"` consists only of paragraph
lines (no headers, bullets, `#`, or emphasis markers), yet formatting and
then stripping tags yields the italic placeholder text, not the empty
concatenation of its kept lines (it has none longer than 5 characters). -/
theorem c6_counterexample :
    stripTags (((parseDetailedAnalysis ("abc".data)).map
        (fun sec => sec.content)).flatten) =
      ("No detailed analysis available.".data) ∧
    ((((splitNl ("abc".data)).map trimJS).filter
        (fun e => 5 < e.length)).flatten = ([] : List Char)) := by
  decide

/-- C6 (amended): for every input of paragraph lines only (no
section-header lines, no bullet lines, and no `*`, `#` or `<` characters)
with at least one line longer than 5 characters after trimming, formatting
the input and stripping HTML tags yields exactly the concatenation of the
trimmed original lines longer than 5 characters, in order. -/
theorem c6_roundtrip_amended (s : List Char)
    (h1 : ∀ l ∈ splitNl s, isSectionHeader (trimJS l) = false)
    (hstar : ∀ c ∈ s, c ≠ '*') (hhash : ∀ c ∈ s, c ≠ '#') (hlt : ∀ c ∈ s, c ≠ '<')
    (hbul : ∀ l ∈ splitNl s, isBulletLine (trimJS l) = false)
    (hlen : ∃ l ∈ splitNl s, 5 < (trimJS l).length) :
    stripTags (((parseDetailedAnalysis s).map (fun sec => sec.content)).flatten) =
      (((splitNl s).map trimJS).filter (fun e => 5 < e.length)).flatten := by
  set E := ((splitNl s).map trimJS).filter (fun e => !e.isEmpty) with hE
  have hEmem : ∀ e ∈ E, ∃ l ∈ splitNl s, trimJS l = e ∧ e ≠ [] := by
    intro e he
    rw [hE, List.mem_filter] at he
    obtain ⟨hmap, hne'⟩ := he
    rw [List.mem_map] at hmap
    obtain ⟨l, hl, hle⟩ := hmap
    refine ⟨l, hl, hle, ?_⟩
    intro hnil'
    rw [hnil'] at hne'
    simp at hne'
  have htrE : ∀ e ∈ E, trimJS e = e := by
    intro e he
    obtain ⟨l, _, hle, _⟩ := hEmem e he
    rw [← hle, trimJS_idem]
  have hnilE : ∀ e ∈ E, e ≠ [] := fun e he => (hEmem e he).choose_spec.2.2
  have hmemS : ∀ e ∈ E, ∀ c ∈ e, c ∈ s := by
    intro e he c hc
    obtain ⟨l, hl, hle, _⟩ := hEmem e he
    exact mem_of_mem_splitNl hl (mem_of_mem_trimJS (hle ▸ hc))
  have hnlE : ∀ e ∈ E, '\n' ∉ e := by
    intro e he hc
    obtain ⟨l, hl, hle, _⟩ := hEmem e he
    exact newline_not_mem_splitNl hl (mem_of_mem_trimJS (hle ▸ hc))
  have hstarE : ∀ e ∈ E, ∀ c ∈ e, c ≠ '*' := fun e he c hc => hstar c (hmemS e he c hc)
  have hhashE : ∀ e ∈ E, ∀ c ∈ e, c ≠ '#' := fun e he c hc => hhash c (hmemS e he c hc)
  have hltE : ∀ e ∈ E, ∀ c ∈ e, c ≠ '<' := fun e he c hc => hlt c (hmemS e he c hc)
  have hbE : ∀ e ∈ E, isBulletLine e = false := by
    intro e he
    obtain ⟨l, hl, hle, _⟩ := hEmem e he
    rw [← hle]
    exact hbul l hl
  obtain ⟨l0, hl0, hlen0⟩ := hlen
  have h0ne : trimJS l0 ≠ [] := by
    intro hc
    rw [hc] at hlen0
    simp at hlen0
  have hmemE : trimJS l0 ∈ E := by
    rw [hE, List.mem_filter]
    refine ⟨List.mem_map.mpr ⟨l0, hl0, rfl⟩, ?_⟩
    rw [isEmpty_false_of_ne_nil h0ne]
    rfl
  have hneE : E ≠ [] := by
    intro hc
    rw [hc] at hmemE
    simp at hmemE
  have hlongE : ∃ e ∈ E, 5 < e.length := ⟨trimJS l0, hmemE, hlen0⟩
  have hheads : ∀ l ∈ splitNl s, (trimJS l).head? ≠ some '#' := by
    intro l hl hcon
    exact hhash '#'
      (mem_of_mem_splitNl hl (mem_of_mem_trimJS (mem_of_head?_eq hcon))) rfl
  have hgather : gatherContent (splitNl s) = (E.map (fun e => e ++ ['\n'])).flatten := by
    rw [gather_eq_flatten (splitNl s) hheads, hE]
  have hgne : gatherContent (splitNl s) ≠ [] := by
    rw [hgather]
    cases hEc : E with
    | nil => exact absurd hEc hneE
    | cons e0 E' =>
      rw [List.map_cons, List.flatten_cons]
      intro hc
      rcases List.append_eq_nil.mp hc with ⟨h01, _⟩
      simp at h01
  have hparse : parseDetailedAnalysis s =
      [⟨generalAnalysisTitle, formatSectionContent (gatherContent (splitNl s))⟩] := by
    rw [parse_noheader h1]
    simp [gather_trim_ne_nil hgne]
  rw [hparse]
  simp only [List.map_cons, List.map_nil, List.flatten_cons, List.flatten_nil,
    List.append_nil]
  rw [hgather, fsc_paragraph_pipeline E hneE htrE hnilE hnlE hstarE hhashE hbE hlongE]
  rw [show stripTags ((E.map pChunk).flatten) =
      stripTagsAux ((E.map pChunk).flatten) false from rfl]
  rw [stripTags_flatten E hltE]
  rw [hE, List.filter_filter]
  congr 1
  apply List.filter_congr
  intro e _
  by_cases h5 : 5 < e.length
  · have hene : e ≠ [] := by
      intro hnil'
      rw [hnil'] at h5
      simp at h5
    simp [h5, isEmpty_false_of_ne_nil hene]
  · simp [h5]

/-- C6 witness: the amended round-trip at the concrete input
`"A first paragraph line\nshort\nanother long line here"`. -/
theorem c6_roundtrip_witness :
    stripTags (((parseDetailedAnalysis
        ("A first paragraph line\nshort\nanother long line here".data)).map
        (fun sec => sec.content)).flatten) =
      (((splitNl ("A first paragraph line\nshort\nanother long line here".data)).map
          trimJS).filter (fun e => 5 < e.length)).flatten :=
  c6_roundtrip_amended ("A first paragraph line\nshort\nanother long line here".data)
    (by decide) (by decide) (by decide) (by decide) (by decide) (by decide)

end Autobots
